import Mathlib

/-!
Verification of `compas_rhino/helpers/mesh.py`.

This file gives a shallow embedding of the algorithmic core of the module:
the bulk attribute update of mesh elements (`mesh_update_vertex_attributes`
and its structurally identical edge/face variants), the face trimming of
`mesh_from_guid`, the quad-grid construction of
`mesh_from_surface_heightfield`, and the boundary-loop assembly of
`mesh_from_surface`.  Theorems about these definitions settle the claims of
the specification.
-/

/-- Model of the dynamic scalar values stored in the per-element attribute
dictionaries of the source.  Floats are elided (not shallowly embeddable);
the source treats all values opaquely through `!=`, `str` and the literal
parser, which this variant supports. -/
inductive PyValue where
  | int (n : Int)
  | bool (b : Bool)
  | str (s : String)
deriving DecidableEq

/-- Model of Python `str` on the values of `PyValue`, as used by
`values = map(str, values)` in the source. -/
def pyStr : PyValue → String
  | .int n => toString n
  | .bool b => if b then "True" else "False"
  | .str s => s

/-- Digit accumulation for the literal parser: all characters must be
decimal digits and the list must be nonempty. -/
def parseNatChars (cs : List Char) : Option Nat :=
  if cs.isEmpty then none
  else cs.foldl (fun acc c =>
    acc.bind (fun n => if c.isDigit then some (n * 10 + (c.toNat - 48)) else none)) (some 0)

/-- Integer literal parser: an optional leading minus sign followed by
decimal digits. -/
def parseIntStr (s : String) : Option Int :=
  match s.toList with
  | '-' :: cs => (parseNatChars cs).map (fun n => -(n : Int))
  | cs => (parseNatChars cs).map (fun n => (n : Int))

/-- Modelled from the spec: the value-coercion utility (`ast.literal_eval`
in the source, which lives outside this repository) parses a string into
its most specific native scalar; integers and booleans are modelled here,
floats and tuple literals are elided, and `none` signals a parse failure
(the `ValueError`/`TypeError` caught by the source). -/
def literalEval (s : String) : Option PyValue :=
  if s = "True" then some (PyValue.bool true)
  else if s = "False" then some (PyValue.bool false)
  else (parseIntStr s).map PyValue.int

/-- Value actually stored by the apply phase for a replacement string:
the parsed literal, or the raw string when parsing fails. -/
def resolvedValue (s : String) : PyValue :=
  (literalEval s).getD (PyValue.str s)

/-- An attribute-bearing mesh element (a vertex, edge or face attribute
dictionary): a total assignment of attribute names to values. -/
abbrev Element : Type := String → PyValue

/-- Write one attribute of an element, as `mesh.vertex[key][name] = value`
does in the source. -/
def setAttr (e : Element) (n : String) (v : PyValue) : Element :=
  fun m => if m = n then v else e m

/-- Inner comparison loop of the summarize phase: compare the first
element's value `v` for name `n` against the remaining elements, stopping
at the first mismatch with the sentinel string. -/
def consensusLoop (n : String) (v : PyValue) : List Element → PyValue
  | [] => v
  | e :: es => if e n = v then consensusLoop n v es else PyValue.str "-"

/-- Summarize phase of the bulk attribute update (source lines building
`values` from `keys[0]` and `keys[1:]`): one consensus value per name. -/
def summarizeVals (first : Element) (rest : List Element) (names : List String) : List PyValue :=
  names.map (fun n => consensusLoop n (first n) rest)

/-- Apply phase of the bulk attribute update: walk the `(name, value)`
pairs returned from the dialog, skipping the sentinel and writing the
coerced value otherwise. -/
def applyEdits : List (String × String) → Element → Element
  | [], e => e
  | p :: ps, e => applyEdits ps (if p.2 = "-" then e else setAttr e p.1 (resolvedValue p.2))

/-- Lexicographic comparison of strings by code point, matching Python's
string ordering as used by `sorted(names)`. -/
def lexLe : List Char → List Char → Bool
  | [], _ => true
  | _ :: _, [] => false
  | a :: as, b :: bs =>
    if a.toNat < b.toNat then true
    else if b.toNat < a.toNat then false
    else lexLe as bs

/-- Insert a string into an ordered list of strings. -/
def insertSorted (x : String) : List String → List String
  | [] => [x]
  | y :: ys => if lexLe x.toList y.toList then x :: y :: ys else y :: insertSorted x ys

/-- Model of `sorted(names)` in the source: insertion sort by code-point
order. -/
def sortNames (l : List String) : List String :=
  l.foldr insertSorted []

/-- The dialog exchange of the source (`compas_rhino.update_named_values`,
outside this repository): the sorted names and the stringified summary are
shown to the user, who returns either an edited list of value strings or
nothing (cancel).  The dialog itself is a parameter. -/
def dialogResult (first : Element) (rest : List Element) (names0 : List String)
    (dialog : List String → List String → Option (List String)) : Option (List String) :=
  dialog (sortNames names0) ((summarizeVals first rest (sortNames names0)).map pyStr)

/-- Embedding of `mesh_update_vertex_attributes` (the edge and face
variants of the source are structurally identical, differing only in which
attribute dictionaries back the elements).  The nonempty selection is
passed as `first` (`keys[0]`) plus `rest` (`keys[1:]`); the returned list
holds the possibly updated elements and the Boolean is the source's return
value. -/
def mesh_update_vertex_attributes (first : Element) (rest : List Element)
    (names0 : List String)
    (dialog : List String → List String → Option (List String)) : List Element × Bool :=
  match dialogResult first rest names0 dialog with
  | none => (first :: rest, false)
  | some vals =>
    if vals.isEmpty then (first :: rest, false)
    else ((first :: rest).map (applyEdits ((sortNames names0).zip vals)), true)

/-- Trim applied by `mesh_from_guid` to each host face:
`face[:-1] if face[-2] == face[-1] else face`.  The host guarantees faces
of at least two indices (Rhino faces carry exactly four); on shorter lists
the source would raise `IndexError`, and this embedding returns the face
unchanged, a case no claim exercises. -/
def trimFace (face : List Nat) : List Nat :=
  match face.reverse with
  | a :: b :: _ => if b = a then face.dropLast else face
  | _ => face

/-- Face-list processing of `mesh_from_guid`: trim every face obtained
from the host mesh before handing them to the mesh constructor. -/
def mesh_from_guid (faces : List (List Nat)) : List (List Nat) :=
  faces.map trimFace

/-- Quad faces of `mesh_from_surface_heightfield`: the two nested `for`
loops over `range(u - 1)` and `range(v - 1)`. -/
def gridFaces (u v : Nat) : List (List Nat) :=
  (List.range (u - 1)).flatMap (fun i =>
    (List.range (v - 1)).map (fun j =>
      [i * v + j, i * v + j + 1, (i + 1) * v + j + 1, (i + 1) * v + j]))

/-- Embedding of `mesh_from_surface_heightfield`: the grid sampler
(`surface.heightfield`, outside this repository) supplies the row-major
`u * v` sample points; one vertex is added per sample in order, and the
quad faces connect adjacent grid cells. -/
def mesh_from_surface_heightfield (P : Type) (samples : List P) (u v : Nat) :
    List P × List (List Nat) :=
  (samples, gridFaces u v)

/-- A boundary-curve segment as exposed by the host: only its start and
end points are ever read by the source. -/
structure Segment (P : Type) where
  pointAtStart : P
  pointAtEnd : P
deriving DecidableEq

/-- A surface object as seen by `mesh_from_surface`: whether its geometry
has a brep form, and (when it does) the boundary loops, each already
exploded into segments by the host. -/
structure SurfaceObj (P : Type) where
  hasBrepForm : Bool
  loops : List (List (Segment P))

/-- Outcome of `mesh_from_surface`: the bare `return` on a geometry
without brep form (`noResult`), a raised `IndexError` on a loop with no
segments (`err`), or the constructed vertex and face lists. -/
inductive MFSResult (P : Type) where
  | noResult
  | err
  | mesh (vertices : List P) (faces : List (List Nat))

/-- Python dict assignment `d[k] = v` on an insertion-ordered dictionary:
an existing key keeps its position and gets the new value, a new key is
appended at the end. -/
def dictInsert {K P : Type} [DecidableEq K] (d : List (K × P)) (k : K) (v : P) : List (K × P) :=
  match d with
  | [] => [(k, v)]
  | (k0, v0) :: rest => if k0 = k then (k0, v) :: rest else (k0, v0) :: dictInsert rest k v

/-- One iteration of the middle-segment loop of `mesh_from_surface`:
record the segment's end point under its geometric key and append the key
to the current face. -/
def assembleStep {K P : Type} [DecidableEq K] (gkey : P → K)
    (acc : List (K × P) × List K) (seg : Segment P) : List (K × P) × List K :=
  (dictInsert acc.1 (gkey seg.pointAtEnd) seg.pointAtEnd, acc.2 ++ [gkey seg.pointAtEnd])

/-- Per-loop body of `mesh_from_surface`: the first segment contributes
its start and end point, every further segment except the last contributes
its end point (`segments[1:-1]`).  `none` models the `IndexError` raised
by `segments[0]` on an empty explosion. -/
def assembleLoop {K P : Type} [DecidableEq K] (gkey : P → K)
    (d : List (K × P)) : List (Segment P) → Option (List (K × P) × List K)
  | [] => none
  | s0 :: rest =>
    some (rest.dropLast.foldl (assembleStep gkey)
      (dictInsert (dictInsert d (gkey s0.pointAtStart) s0.pointAtStart)
        (gkey s0.pointAtEnd) s0.pointAtEnd,
       [gkey s0.pointAtStart, gkey s0.pointAtEnd]))

/-- Iteration of the per-loop body over all boundary loops, threading the
key dictionary and accumulating one key face per loop. -/
def assembleLoops {K P : Type} [DecidableEq K] (gkey : P → K) :
    List (List (Segment P)) → List (K × P) × List (List K) →
    Option (List (K × P) × List (List K))
  | [], st => some st
  | l :: ls, st =>
    match assembleLoop gkey st.1 l with
    | none => none
    | some (d, face) => assembleLoops gkey ls (d, st.2 ++ [face])

/-- Embedding of `mesh_from_surface`.  The geometric-key function of the
source (`compas.utilities.geometric_key`, outside this repository) is a
parameter.  After loop assembly, vertices are the dictionary values in
insertion order and each face key is replaced by the position of that key
in the dictionary (`gkey_index`), here computed with `indexOf`, which
agrees with the source's enumeration because dictionary keys are unique. -/
def mesh_from_surface {K P : Type} [DecidableEq K] (gkey : P → K)
    (surf : SurfaceObj P) : MFSResult P :=
  if surf.hasBrepForm then
    match assembleLoops gkey surf.loops ([], []) with
    | none => MFSResult.err
    | some (d, kfaces) =>
      MFSResult.mesh (d.map Prod.snd)
        (kfaces.map (fun f => f.map (fun k => (d.map Prod.fst).indexOf k)))
  else MFSResult.noResult

/-- Sequence of geometric keys contributed by one loop, in the order the
source encounters them. -/
def loopKeys {K P : Type} (gkey : P → K) : List (Segment P) → List K
  | [] => []
  | s0 :: rest =>
    gkey s0.pointAtStart :: gkey s0.pointAtEnd ::
      rest.dropLast.map (fun s => gkey s.pointAtEnd)

/-- Sequence of geometric keys encountered over all loops of a surface,
in source order. -/
def encounterKeys {K P : Type} (gkey : P → K) (loops : List (List (Segment P))) : List K :=
  (loops.map (loopKeys gkey)).flatten

/-- First-seen deduplication of a key sequence: the specification's
description of the vertex order produced by the spatial key index. -/
def firstSeen {K : Type} [DecidableEq K] (acc : List K) : List K → List K
  | [] => acc
  | k :: ks => firstSeen (if k ∈ acc then acc else acc ++ [k]) ks

/-- Concrete 3D point with integer coordinates in units of 1e-6, used to
instantiate the claims on concrete geometry. -/
structure Pt3 where
  x : Int
  y : Int
  z : Int
deriving DecidableEq

/-- Modelled from the spec: `geometric_key` (outside this repository)
rounds each coordinate half-up at precision 1e-3.  On `Pt3` coordinates in
1e-6 units this is rounding to the nearest multiple of 1000. -/
def gkeyMilli (p : Pt3) : Int × Int × Int :=
  ((p.x + 500) / 1000, (p.y + 500) / 1000, (p.z + 500) / 1000)

/-- Corner at the origin. -/
def ptA : Pt3 := ⟨0, 0, 0⟩

/-- Point one micro-unit from the origin: distinct from `ptA` but with the
same geometric key at precision 1e-3. -/
def ptA1 : Pt3 := ⟨1, 0, 0⟩

/-- Corner one unit along x. -/
def ptB : Pt3 := ⟨1000000, 0, 0⟩

/-- Corner one unit along y. -/
def ptC : Pt3 := ⟨0, 1000000, 0⟩

/-- Surface with a single triangular boundary loop of three contiguous
segments whose endpoints coincide pairwise at the shared corners. -/
def triSurf : SurfaceObj Pt3 :=
  ⟨true, [[⟨ptA, ptB⟩, ⟨ptB, ptC⟩, ⟨ptC, ptA⟩]]⟩

/-- Surface with one loop of four contiguous segments that revisits the
key of its start corner at `ptA1`, a point distinct from `ptA` but sharing
its geometric key. -/
def overwriteSurf : SurfaceObj Pt3 :=
  ⟨true, [[⟨ptA, ptB⟩, ⟨ptB, ptA1⟩, ⟨ptA1, ptC⟩, ⟨ptC, ptA⟩]]⟩

/-- Surface whose single boundary loop explodes into one closed segment. -/
def oneSegSurf : SurfaceObj Pt3 :=
  ⟨true, [[⟨ptA, ptA⟩]]⟩

/-- Concrete element holding the integer 5 for every attribute name. -/
def elemFive : Element := fun _ => PyValue.int 5

/-- Concrete dialog that returns the single replacement string "7". -/
def dlgSeven : List String → List String → Option (List String) := fun _ _ => some ["7"]

/-- Row-major 3x3 sample grid on the unit square (coordinates in 1e-6
units, half-unit spacing, z = 0). -/
def pts9 : List Pt3 :=
  [⟨0, 0, 0⟩, ⟨500000, 0, 0⟩, ⟨1000000, 0, 0⟩,
   ⟨0, 500000, 0⟩, ⟨500000, 500000, 0⟩, ⟨1000000, 500000, 0⟩,
   ⟨0, 1000000, 0⟩, ⟨500000, 1000000, 0⟩, ⟨1000000, 1000000, 0⟩]

lemma consensusLoop_eq (n : String) (v : PyValue) (rest : List Element) :
    consensusLoop n v rest = if (∀ e ∈ rest, e n = v) then v else PyValue.str "-" := by
  induction rest with
  | nil => simp [consensusLoop]
  | cons e es ih =>
    by_cases h : e n = v
    · simp [consensusLoop, h, ih, List.forall_mem_cons]
    · simp [consensusLoop, h, List.forall_mem_cons]

lemma applyEdits_nin (ps : List (String × String)) (e : Element) (n : String)
    (h : n ∉ ps.map Prod.fst) : applyEdits ps e n = e n := by
  induction ps generalizing e with
  | nil => rfl
  | cons p ps ih =>
    simp only [List.map_cons, List.mem_cons, not_or] at h
    rw [applyEdits, ih _ h.2]
    by_cases hv : p.2 = "-"
    · simp [hv]
    · simp [hv, setAttr, h.1]

lemma applyEdits_mem (ps : List (String × String)) (e : Element) (n : String) (v : String)
    (hnd : (ps.map Prod.fst).Nodup) (hm : (n, v) ∈ ps) :
    applyEdits ps e n = if v = "-" then e n else resolvedValue v := by
  induction ps generalizing e with
  | nil => cases hm
  | cons p ps ih =>
    simp only [List.map_cons, List.nodup_cons] at hnd
    rcases List.mem_cons.mp hm with hm1 | hm1
    · have hp : p = (n, v) := hm1.symm
      subst hp
      rw [applyEdits, applyEdits_nin _ _ _ hnd.1]
      by_cases hv : v = "-"
      · simp [hv]
      · simp [hv, setAttr]
    · have hne : ¬n = p.1 := by
        intro hEq
        exact hnd.1 (hEq ▸ List.mem_map.mpr ⟨(n, v), hm1, rfl⟩)
      rw [applyEdits, ih _ hnd.2 hm1]
      by_cases hp : p.2 = "-"
      · simp [hp]
      · simp [hp, setAttr, hne]

lemma applyEdits_skip (ps : List (String × String)) (e : Element) (n : String)
    (h : ∀ v, (n, v) ∈ ps → v = "-") : applyEdits ps e n = e n := by
  induction ps generalizing e with
  | nil => rfl
  | cons p ps ih =>
    rw [applyEdits, ih _ (fun v hv => h v (List.mem_cons_of_mem p hv))]
    by_cases hv : p.2 = "-"
    · simp [hv]
    · have hne : n ≠ p.1 := by
        intro hEq
        exact hv (h p.2 (by rw [hEq]; exact List.mem_cons_self p ps))
      simp [hv, setAttr, hne]

lemma applyEdits_cases (ps : List (String × String)) (e : Element) (n : String) :
    applyEdits ps e n = e n ∨ ∃ v, v ≠ "-" ∧ applyEdits ps e n = resolvedValue v := by
  induction ps generalizing e with
  | nil => exact Or.inl rfl
  | cons p ps ih =>
    rw [applyEdits]
    by_cases hv : p.2 = "-"
    · simpa [hv] using ih e
    · rw [if_neg hv]
      rcases ih (setAttr e p.1 (resolvedValue p.2)) with h1 | ⟨w, hw, h2⟩
      · rw [h1]
        by_cases hn : n = p.1
        · exact Or.inr ⟨p.2, hv, by simp [setAttr, hn]⟩
        · exact Or.inl (by simp [setAttr, hn])
      · exact Or.inr ⟨w, hw, h2⟩

lemma literalEval_not_str (s t : String) : literalEval s ≠ some (PyValue.str t) := by
  intro h
  unfold literalEval at h
  by_cases h1 : s = "True"
  · simp [h1] at h
  · by_cases h2 : s = "False"
    · simp [h1, h2] at h
    · simp [h1, h2, Option.map_eq_some'] at h

lemma resolvedValue_ne_sentinel (v : String) (h : v ≠ "-") :
    resolvedValue v ≠ PyValue.str "-" := by
  unfold resolvedValue
  cases he : literalEval v with
  | none =>
    simp only [Option.getD_none]
    intro hc
    exact h (by injection hc)
  | some pv =>
    simp only [Option.getD_some]
    intro hc
    exact literalEval_not_str v "-" (hc ▸ he)

lemma nodup_fst_eq {ps : List (String × String)} (hnd : (ps.map Prod.fst).Nodup)
    {n v v' : String} (h1 : (n, v) ∈ ps) (h2 : (n, v') ∈ ps) : v = v' := by
  induction ps with
  | nil => cases h1
  | cons p ps ih =>
    simp only [List.map_cons, List.nodup_cons] at hnd
    rcases List.mem_cons.mp h1 with ha | ha <;> rcases List.mem_cons.mp h2 with hb | hb
    · rw [← ha] at hb
      injection hb with hfst hsnd
      exact hsnd.symm
    · exact absurd (by
        have hpn : p.1 = n := by rw [← ha]
        rw [hpn]
        exact List.mem_map.mpr ⟨(n, v'), hb, rfl⟩) hnd.1
    · exact absurd (by
        have hpn : p.1 = n := by rw [← hb]
        rw [hpn]
        exact List.mem_map.mpr ⟨(n, v), ha, rfl⟩) hnd.1
    · exact ih hnd.2 ha hb

/-- C3 (amended): the summarize phase computes, for each requested name,
the first element's value when every other element agrees on it and the
sentinel string otherwise; with a single element it returns that element's
raw values verbatim (so a raw value equal to the sentinel string is
returned as-is and is indistinguishable from the mixed marker). -/
theorem summarize_consensus :
    (∀ (first : Element) (rest : List Element) (names : List String),
      summarizeVals first rest names
        = names.map (fun n => if (∀ e ∈ rest, e n = first n) then first n else PyValue.str "-")) ∧
    (∀ (first : Element) (names : List String),
      summarizeVals first [] names = names.map (fun n => first n)) := by
  constructor
  · intro first rest names
    exact List.map_congr_left (fun n _ => consensusLoop_eq n (first n) rest)
  · intro first names
    exact List.map_congr_left (fun n _ => rfl)

/-- C3 counterexample: with exactly one element whose attribute value is
the literal string of the sentinel, the summary contains the mixed
sentinel even though no mismatch exists, refuting the clause that the
sentinel never appears for a single element. -/
theorem summarize_single_sentinel_collision :
    summarizeVals (fun _ => PyValue.str "-") [] ["color"] = [PyValue.str "-"] := rfl

/-- C4: when the dialog returns an edit mapping, the apply phase writes,
for each name whose value is not the sentinel, the same resolved value to
every element of the selection, the resolved value being the parsed
literal with the raw string as fallback; names carrying the sentinel leave
every element's value for that name unchanged, a parse failure resolves to
the raw string (never an error), and the edit "7" resolves to the
integer 7. -/
theorem mesh_update_apply_coerces :
    ∀ (first : Element) (rest : List Element) (names0 : List String)
      (dialog : List String → List String → Option (List String))
      (vals : List String) (n v : String),
      dialogResult first rest names0 dialog = some vals → vals ≠ [] →
      (((sortNames names0).zip vals).map Prod.fst).Nodup →
      (n, v) ∈ (sortNames names0).zip vals →
      ((v ≠ "-" → ∀ e ∈ (mesh_update_vertex_attributes first rest names0 dialog).1,
          e n = resolvedValue v) ∧
       (v = "-" → (mesh_update_vertex_attributes first rest names0 dialog).1.map (fun e => e n)
          = (first :: rest).map (fun e => e n)) ∧
       resolvedValue "7" = PyValue.int 7 ∧
       (∀ s, literalEval s = none → resolvedValue s = PyValue.str s)) := by
  intro first rest names0 dialog vals n v hd hne hnd hm
  have hres : mesh_update_vertex_attributes first rest names0 dialog
      = ((first :: rest).map (applyEdits ((sortNames names0).zip vals)), true) := by
    unfold mesh_update_vertex_attributes
    rw [hd]
    cases vals with
    | nil => exact absurd rfl hne
    | cons a l => rfl
  refine ⟨?_, ?_, by decide, ?_⟩
  · intro hv e he
    rw [hres] at he
    simp only [List.mem_map] at he
    obtain ⟨e0, _, rfl⟩ := he
    rw [applyEdits_mem _ _ _ _ hnd hm, if_neg hv]
  · intro hv
    rw [hres]
    simp only [List.map_map]
    apply List.map_congr_left
    intro e0 _
    show applyEdits _ e0 n = e0 n
    apply applyEdits_skip
    intro v' hv'
    rw [← hv]
    exact (nodup_fst_eq hnd hm hv').symm
  · intro s hs
    unfold resolvedValue
    rw [hs]
    rfl

/-- C4 witness: a selection of two elements whose "count" is 5, edited
through a dialog returning "7", ends with every element holding the
integer 7 for "count". -/
theorem mesh_update_apply_coerces_inst :
    applyEdits ((sortNames ["count"]).zip ["7"]) elemFive "count" = resolvedValue "7"
    ∧ resolvedValue "7" = PyValue.int 7 := by
  have h := mesh_update_apply_coerces elemFive [elemFive] ["count"] dlgSeven ["7"] "count" "7"
    rfl (by decide) (by decide) (by decide)
  refine ⟨h.1 (by decide) (applyEdits ((sortNames ["count"]).zip ["7"]) elemFive) ?_, h.2.2.1⟩
  show applyEdits ((sortNames ["count"]).zip ["7"]) elemFive
    ∈ (mesh_update_vertex_attributes elemFive [elemFive] ["count"] dlgSeven).1
  exact List.mem_cons_self _ _

/-- C5 (amended): each bulk attribute update returns True exactly when the
dialog returned a nonempty edit list, regardless of whether any attribute
value was actually written; it returns False only when the dialog was
cancelled or returned an empty list. -/
theorem mesh_update_returns_dialog_success :
    ∀ (first : Element) (rest : List Element) (names0 : List String)
      (dialog : List String → List String → Option (List String)),
      ((mesh_update_vertex_attributes first rest names0 dialog).2 = true
        ↔ ∃ vals, dialogResult first rest names0 dialog = some vals ∧ vals ≠ []) := by
  intro first rest names0 dialog
  unfold mesh_update_vertex_attributes
  cases hd : dialogResult first rest names0 dialog with
  | none => simp
  | some vals =>
    cases vals with
    | nil => simp
    | cons a l => simp

/-- C5 counterexample: with one element holding 5 for "a" and a dialog
returning the unedited sentinel, the function writes nothing and returns
the unchanged element, yet its Boolean result is True — refuting the claim
that True is returned exactly when at least one attribute was written. -/
theorem mesh_update_true_without_write :
    mesh_update_vertex_attributes (fun _ => PyValue.int 5) [] ["a"]
      (fun _ _ => some ["-"]) = ([fun _ => PyValue.int 5], true) := rfl

/-- C10: a name whose post-edit value is the sentinel string is always
skipped on write-back (its stored value on every element is untouched,
even when all elements genuinely hold the sentinel), and a changed
attribute value is never the sentinel string, so the sentinel can never be
written by the bulk update. -/
theorem sentinel_never_written :
    (∀ (ps : List (String × String)) (e : Element) (n : String),
      (∀ v, (n, v) ∈ ps → v = "-") → applyEdits ps e n = e n) ∧
    (∀ (ps : List (String × String)) (e : Element) (n : String),
      applyEdits ps e n ≠ e n → applyEdits ps e n ≠ PyValue.str "-") ∧
    (∀ (first : Element) (rest : List Element) (names0 : List String)
       (dialog : List String → List String → Option (List String)) (n : String),
      (∀ vals v, dialogResult first rest names0 dialog = some vals →
        (n, v) ∈ (sortNames names0).zip vals → v = "-") →
      (mesh_update_vertex_attributes first rest names0 dialog).1.map (fun e => e n)
        = (first :: rest).map (fun e => e n)) := by
  refine ⟨applyEdits_skip, ?_, ?_⟩
  · intro ps e n hch
    rcases applyEdits_cases ps e n with h1 | ⟨v, hv, h2⟩
    · exact absurd h1 hch
    · rw [h2]
      exact resolvedValue_ne_sentinel v hv
  · intro first rest names0 dialog n hall
    unfold mesh_update_vertex_attributes
    cases hd : dialogResult first rest names0 dialog with
    | none => rfl
    | some vals =>
      cases vals with
      | nil => rfl
      | cons a l =>
        simp only [List.isEmpty_cons, Bool.false_eq_true, if_false, List.map_map]
        apply List.map_congr_left
        intro e0 _
        show applyEdits _ e0 n = e0 n
        exact applyEdits_skip _ _ _ (fun v hv => hall (a :: l) v hd hv)

/-- C10 witness: the skip, the never-written and the end-to-end clause
instantiated on concrete inputs. -/
theorem sentinel_never_written_inst :
    applyEdits [("a", "-")] elemFive "a" = elemFive "a"
    ∧ applyEdits [("a", "7")] (fun _ => PyValue.str "x") "a" ≠ PyValue.str "-"
    ∧ (mesh_update_vertex_attributes elemFive [] ["a"] (fun _ _ => none)).1.map (fun e => e "a")
        = ([elemFive] : List Element).map (fun e => e "a") := by
  refine ⟨?_, ?_, ?_⟩
  · apply sentinel_never_written.1
    intro v hv
    simp only [List.mem_singleton, Prod.mk.injEq] at hv
    exact hv.2
  · exact sentinel_never_written.2.1 _ _ _ (by decide)
  · exact sentinel_never_written.2.2 elemFive [] ["a"] (fun _ _ => none) "a"
      (fun vals v h _ => Option.noConfusion h)

/-- C9 (amended): `mesh_from_guid` removes the last vertex index of every
face whose final two indices coincide and leaves every other face
unchanged; it does not inspect (and hence does not guarantee anything
about) the relation between a face's first and last index. -/
theorem mesh_from_guid_trim :
    (∀ (xs : List Nat) (b a : Nat),
      trimFace (xs ++ [b, a]) = if b = a then xs ++ [b] else xs ++ [b, a]) ∧
    (∀ (fss : List (List Nat)) (i : Nat) (h1 : i < (mesh_from_guid fss).length)
       (h2 : i < fss.length),
      (mesh_from_guid fss).get ⟨i, h1⟩ = trimFace (fss.get ⟨i, h2⟩)) := by
  constructor
  · intro xs b a
    have hrev : (xs ++ [b, a]).reverse = a :: b :: xs.reverse := by
      simp
    have hdrop : (xs ++ [b, a]).dropLast = xs ++ [b] := by
      have : xs ++ [b, a] = (xs ++ [b]) ++ [a] := by simp
      rw [this, List.dropLast_concat]
    unfold trimFace
    rw [hrev]
    by_cases hba : b = a
    · simp [hba, hdrop]
    · simp [hba]
  · intro fss i h1 h2
    simp [mesh_from_guid, List.getElem_map]

/-- C9 counterexample: a face whose first and last indices coincide but
whose last two differ passes through `mesh_from_guid` unchanged, so the
constructed face still has its first vertex index equal to its last,
refuting the claimed guarantee. -/
theorem mesh_from_guid_first_eq_last :
    mesh_from_guid [[0, 1, 2, 0]] = [[0, 1, 2, 0]]
    ∧ ([0, 1, 2, 0] : List Nat).head? = ([0, 1, 2, 0] : List Nat).getLast? := by
  exact ⟨rfl, rfl⟩

/-- C9 witness: the trim equation applied to a Rhino-style triangle face
with a duplicate closing index, and the per-face clause at index 0. -/
theorem mesh_from_guid_trim_inst :
    trimFace ([0, 1] ++ [2, 2]) = [0, 1, 2]
    ∧ (mesh_from_guid [[0, 1, 2, 2]]).get ⟨0, by decide⟩ = trimFace [0, 1, 2, 2] := by
  constructor
  · rw [mesh_from_guid_trim.1 [0, 1] 2 2]
    rfl
  · exact mesh_from_guid_trim.2 [[0, 1, 2, 2]] 0 (by decide) (by decide)

lemma flatMap_length_const {α β : Type} (l : List α) (f : α → List β) (c : Nat)
    (h : ∀ a ∈ l, (f a).length = c) : (l.flatMap f).length = l.length * c := by
  induction l with
  | nil => simp
  | cons a l ih =>
    simp only [List.flatMap_cons, List.length_append, List.length_cons]
    rw [ih (fun x hx => h x (List.mem_cons_of_mem a hx)), h a (List.mem_cons_self a l),
      Nat.succ_mul, Nat.add_comm]

/-- C2: on a row-major grid of `u * v` sample points the heightfield mesh
emits exactly the samples as vertices, in sample order and without
deduplication, and exactly `(u-1)*(v-1)` quad faces, the face of cell
`(i, j)` having corners `(i*v+j, i*v+j+1, (i+1)*v+j+1, (i+1)*v+j)` in that
order; `u = 1` or `v = 1` yields vertices but no faces, and `u = 0` or
`v = 0` yields an empty mesh rather than an error. -/
theorem mesh_from_surface_heightfield_grid :
    ∀ (P : Type) (samples : List P) (u v : Nat),
      samples.length = u * v →
      ((mesh_from_surface_heightfield P samples u v).1 = samples ∧
       (mesh_from_surface_heightfield P samples u v).1.length = u * v ∧
       (mesh_from_surface_heightfield P samples u v).2.length = (u - 1) * (v - 1) ∧
       (∀ i j, i < u - 1 → j < v - 1 →
         [i * v + j, i * v + j + 1, (i + 1) * v + j + 1, (i + 1) * v + j]
           ∈ (mesh_from_surface_heightfield P samples u v).2) ∧
       (∀ f ∈ (mesh_from_surface_heightfield P samples u v).2,
         ∃ i j, i < u - 1 ∧ j < v - 1 ∧
           f = [i * v + j, i * v + j + 1, (i + 1) * v + j + 1, (i + 1) * v + j]) ∧
       ((u = 0 ∨ v = 0) → (mesh_from_surface_heightfield P samples u v).1 = []
          ∧ (mesh_from_surface_heightfield P samples u v).2 = []) ∧
       ((u = 1 ∨ v = 1) → (mesh_from_surface_heightfield P samples u v).2 = [])) := by
  intro P samples u v hlen
  have hfaces : (gridFaces u v).length = (u - 1) * (v - 1) := by
    unfold gridFaces
    rw [flatMap_length_const _ _ (v - 1) (fun a _ => by simp), List.length_range]
  have hmem : ∀ f, f ∈ gridFaces u v ↔
      ∃ i j, i < u - 1 ∧ j < v - 1 ∧
        f = [i * v + j, i * v + j + 1, (i + 1) * v + j + 1, (i + 1) * v + j] := by
    intro f
    unfold gridFaces
    simp only [List.mem_flatMap, List.mem_map, List.mem_range]
    constructor
    · rintro ⟨i, hi, j, hj, rfl⟩
      exact ⟨i, j, hi, hj, rfl⟩
    · rintro ⟨i, j, hi, hj, rfl⟩
      exact ⟨i, hi, j, hj, rfl⟩
  refine ⟨rfl, hlen, hfaces, ?_, ?_, ?_, ?_⟩
  · intro i j hi hj
    exact (hmem _).mpr ⟨i, j, hi, hj, rfl⟩
  · intro f hf
    exact (hmem f).mp hf
  · intro hz
    constructor
    · apply List.length_eq_zero.mp
      show samples.length = 0
      rw [hlen]
      rcases hz with hz | hz <;> simp [hz]
    · apply List.length_eq_zero.mp
      show (gridFaces u v).length = 0
      rw [hfaces]
      rcases hz with hz | hz <;> simp [hz]
  · intro ho
    apply List.length_eq_zero.mp
    show (gridFaces u v).length = 0
    rw [hfaces]
    rcases ho with ho | ho <;> simp [ho]

/-- C2 witness: the 3x3 grid of the specification yields 9 vertices and 4
quad faces. -/
theorem mesh_from_surface_heightfield_grid_inst :
    pts9.length = 3 * 3
    ∧ (mesh_from_surface_heightfield Pt3 pts9 3 3).1.length = 3 * 3
    ∧ (mesh_from_surface_heightfield Pt3 pts9 3 3).2.length = (3 - 1) * (3 - 1) := by
  have h := mesh_from_surface_heightfield_grid Pt3 pts9 3 3 (by decide)
  exact ⟨by decide, h.2.1, h.2.2.1⟩

lemma dictInsert_keys {K P : Type} [DecidableEq K] (d : List (K × P)) (k : K) (v : P) :
    (dictInsert d k v).map Prod.fst
      = if k ∈ d.map Prod.fst then d.map Prod.fst else d.map Prod.fst ++ [k] := by
  induction d with
  | nil => simp [dictInsert]
  | cons p d ih =>
    obtain ⟨k0, v0⟩ := p
    by_cases h : k0 = k
    · subst h
      simp [dictInsert]
    · have hne : ¬k = k0 := fun hEq => h hEq.symm
      simp only [dictInsert, if_neg h, List.map_cons, List.mem_cons, hne, false_or, ih]
      by_cases hm : k ∈ d.map Prod.fst
      · simp [hm]
      · simp [hm]

lemma dictInsert_inv {K P : Type} [DecidableEq K] (gkey : P → K) (d : List (K × P)) (p : P)
    (h : ∀ kp ∈ d, kp.1 = gkey kp.2) :
    ∀ kp ∈ dictInsert d (gkey p) p, kp.1 = gkey kp.2 := by
  induction d with
  | nil =>
    intro kp hkp
    simp only [dictInsert, List.mem_singleton] at hkp
    subst hkp
    rfl
  | cons q d ih =>
    obtain ⟨k0, v0⟩ := q
    simp only [List.forall_mem_cons] at h
    by_cases hk : k0 = gkey p
    · intro kp hkp
      simp only [dictInsert, if_pos hk, List.mem_cons] at hkp
      rcases hkp with hkp | hkp
      · subst hkp
        exact hk
      · exact h.2 kp hkp
    · intro kp hkp
      simp only [dictInsert, if_neg hk, List.mem_cons] at hkp
      rcases hkp with hkp | hkp
      · subst hkp
        exact h.1
      · exact ih h.2 kp hkp

lemma firstSeen_append {K : Type} [DecidableEq K] (acc ks1 ks2 : List K) :
    firstSeen acc (ks1 ++ ks2) = firstSeen (firstSeen acc ks1) ks2 := by
  induction ks1 generalizing acc with
  | nil => simp [firstSeen]
  | cons k ks ih =>
    simp only [List.cons_append, firstSeen]
    exact ih _

lemma firstSeen_mem {K : Type} [DecidableEq K] (ks : List K) (acc : List K) (k : K)
    (h : k ∈ ks ∨ k ∈ acc) : k ∈ firstSeen acc ks := by
  induction ks generalizing acc with
  | nil =>
    rcases h with h | h
    · cases h
    · simpa [firstSeen] using h
  | cons k0 ks ih =>
    simp only [firstSeen]
    apply ih
    rcases h with h | h
    · rcases List.mem_cons.mp h with h | h
      · subst h
        right
        by_cases hm : k ∈ acc
        · simp [hm]
        · simp [hm]
      · exact Or.inl h
    · right
      by_cases hm : k0 ∈ acc
      · simpa [hm] using h
      · simp only [if_neg hm, List.mem_append]
        exact Or.inl h

lemma foldl_assembleStep_snd {K P : Type} [DecidableEq K] (gkey : P → K)
    (segs : List (Segment P)) (d : List (K × P)) (f : List K) :
    (segs.foldl (assembleStep gkey) (d, f)).2 = f ++ segs.map (fun s => gkey s.pointAtEnd) := by
  induction segs generalizing d f with
  | nil => simp
  | cons s segs ih =>
    simp only [List.foldl_cons, assembleStep, List.map_cons]
    rw [ih]
    simp

lemma foldl_assembleStep_keys {K P : Type} [DecidableEq K] (gkey : P → K)
    (segs : List (Segment P)) (d : List (K × P)) (f : List K) :
    ((segs.foldl (assembleStep gkey) (d, f)).1).map Prod.fst
      = firstSeen (d.map Prod.fst) (segs.map (fun s => gkey s.pointAtEnd)) := by
  induction segs generalizing d f with
  | nil => simp [firstSeen]
  | cons s segs ih =>
    simp only [List.foldl_cons, assembleStep, List.map_cons, firstSeen]
    rw [ih, dictInsert_keys]

lemma foldl_assembleStep_inv {K P : Type} [DecidableEq K] (gkey : P → K)
    (segs : List (Segment P)) (d : List (K × P)) (f : List K)
    (h : ∀ kp ∈ d, kp.1 = gkey kp.2) :
    ∀ kp ∈ (segs.foldl (assembleStep gkey) (d, f)).1, kp.1 = gkey kp.2 := by
  induction segs generalizing d f with
  | nil => exact h
  | cons s segs ih => exact ih _ _ (dictInsert_inv gkey d s.pointAtEnd h)

lemma assembleLoop_some {K P : Type} [DecidableEq K] (gkey : P → K)
    (d : List (K × P)) (segs : List (Segment P)) (d' : List (K × P)) (face : List K)
    (h : assembleLoop gkey d segs = some (d', face)) :
    face = loopKeys gkey segs
    ∧ d'.map Prod.fst = firstSeen (d.map Prod.fst) (loopKeys gkey segs)
    ∧ ((∀ kp ∈ d, kp.1 = gkey kp.2) → ∀ kp ∈ d', kp.1 = gkey kp.2) := by
  cases segs with
  | nil => cases h
  | cons s0 rest =>
    simp only [assembleLoop, Option.some.injEq] at h
    obtain ⟨h1, h2⟩ := Prod.ext_iff.mp h
    replace h1 : _ = d' := h1
    replace h2 : _ = face := h2
    refine ⟨?_, ?_, ?_⟩
    · rw [← h2, foldl_assembleStep_snd]
      simp [loopKeys]
    · rw [← h1, foldl_assembleStep_keys, dictInsert_keys, dictInsert_keys]
      simp [loopKeys, firstSeen]
    · intro hinv
      rw [← h1]
      exact foldl_assembleStep_inv gkey _ _ _
        (dictInsert_inv gkey _ _ (dictInsert_inv gkey _ _ hinv))

lemma assembleLoops_some {K P : Type} [DecidableEq K] (gkey : P → K)
    (loops : List (List (Segment P))) (st : List (K × P) × List (List K))
    (d' : List (K × P)) (fs' : List (List K))
    (h : assembleLoops gkey loops st = some (d', fs')) :
    fs' = st.2 ++ loops.map (loopKeys gkey)
    ∧ d'.map Prod.fst
        = firstSeen (st.1.map Prod.fst) ((loops.map (loopKeys gkey)).flatten)
    ∧ ((∀ kp ∈ st.1, kp.1 = gkey kp.2) → ∀ kp ∈ d', kp.1 = gkey kp.2)
    ∧ (∀ l ∈ loops, l ≠ []) := by
  induction loops generalizing st with
  | nil =>
    simp only [assembleLoops, Option.some.injEq] at h
    subst h
    simp [firstSeen]
  | cons l ls ih =>
    simp only [assembleLoops] at h
    cases hl : assembleLoop gkey st.1 l with
    | none => rw [hl] at h; cases h
    | some pr =>
      obtain ⟨d1, face⟩ := pr
      rw [hl] at h
      obtain ⟨hface, hkeys, hinv⟩ := assembleLoop_some gkey st.1 l d1 face hl
      obtain ⟨ih1, ih2, ih3, ih4⟩ := ih (d1, st.2 ++ [face]) h
      refine ⟨?_, ?_, ?_, ?_⟩
      · rw [ih1]
        simp [hface, List.append_assoc]
      · rw [ih2]
        simp only [List.map_cons, List.flatten_cons]
        rw [firstSeen_append, ← hkeys]
      · intro h0
        exact ih3 (hinv h0)
      · intro l' hl'
        rcases List.mem_cons.mp hl' with hEq | hmem
        · subst hEq
          intro hnil
          rw [hnil] at hl
          cases hl
        · exact ih4 l' hmem

lemma mfs_some {K P : Type} [DecidableEq K] (gkey : P → K) (surf : SurfaceObj P)
    (vs : List P) (fs : List (List Nat))
    (h : mesh_from_surface gkey surf = MFSResult.mesh vs fs) :
    ∃ d kfaces, assembleLoops gkey surf.loops ([], []) = some (d, kfaces)
      ∧ vs = d.map Prod.snd
      ∧ fs = kfaces.map (fun f => f.map (fun k => (d.map Prod.fst).indexOf k)) := by
  unfold mesh_from_surface at h
  by_cases hb : surf.hasBrepForm
  · rw [if_pos hb] at h
    cases ha : assembleLoops gkey surf.loops ([], []) with
    | none => rw [ha] at h; cases h
    | some pr =>
      obtain ⟨d, kfaces⟩ := pr
      rw [ha] at h
      injection h with h1 h2
      exact ⟨d, kfaces, rfl, h1.symm, h2.symm⟩
  · rw [if_neg hb] at h
    cases h

/-- C1 (amended): `mesh_from_surface` produces exactly one face per
boundary loop, built from the first segment's start and end points and the
end points of the middle segments, so a loop of n >= 2 segments yields a
face of exactly n entries; a loop whose curve explodes into a single
segment yields a face of 2 entries, not 1.  The triangular scenario holds:
one loop of 3 segments with pairwise coinciding corners yields exactly 3
vertices and 1 face of length 3. -/
theorem mesh_from_surface_one_face_per_loop :
    (∀ (P K : Type) [DecidableEq K] (gkey : P → K) (surf : SurfaceObj P)
       (vs : List P) (fs : List (List Nat)),
      mesh_from_surface gkey surf = MFSResult.mesh vs fs →
      (fs.length = surf.loops.length ∧
       ∀ (i : Nat) (h1 : i < fs.length) (h2 : i < surf.loops.length),
         (fs.get ⟨i, h1⟩).length = max 2 (surf.loops.get ⟨i, h2⟩).length)) ∧
    mesh_from_surface gkeyMilli triSurf = MFSResult.mesh [ptA, ptB, ptC] [[0, 1, 2]] := by
  constructor
  · intro P K inst gkey surf vs fs h
    obtain ⟨d, kfaces, hassem, hvs, hfs⟩ := mfs_some gkey surf vs fs h
    obtain ⟨hkf, _, _, hnn⟩ := assembleLoops_some gkey surf.loops ([], []) d kfaces hassem
    simp only [List.nil_append] at hkf
    subst hfs
    subst hkf
    constructor
    · simp
    · intro i h1 h2
      have hil : i < surf.loops.length := h2
      have hget : surf.loops.get ⟨i, h2⟩ ∈ surf.loops := List.get_mem _ _ h2
      have hl : surf.loops.get ⟨i, h2⟩ ≠ [] := hnn _ hget
      obtain ⟨s0, rest, hcons⟩ := List.exists_cons_of_ne_nil hl
      simp only [List.get_eq_getElem] at hcons ⊢
      simp only [List.getElem_map, List.length_map, hcons, loopKeys, List.length_cons,
        List.length_dropLast]
      omega
  · rfl

/-- C1 counterexample: a boundary loop exploding into a single closed
segment yields a face of 2 entries while the loop has 1 segment, refuting
the clause that every face's vertex count equals its loop's segment
count. -/
theorem mesh_from_surface_single_segment_loop :
    mesh_from_surface gkeyMilli oneSegSurf = MFSResult.mesh [ptA] [[0, 0]]
    ∧ ([0, 0] : List Nat).length ≠ ([⟨ptA, ptA⟩] : List (Segment Pt3)).length :=
  ⟨rfl, by decide⟩

/-- C1 witness: the general face-per-loop statement instantiated on the
triangular scenario surface. -/
theorem mesh_from_surface_one_face_per_loop_inst :
    ([[0, 1, 2]] : List (List Nat)).length = triSurf.loops.length
    ∧ (([[0, 1, 2]] : List (List Nat)).get ⟨0, by decide⟩).length
        = max 2 (triSurf.loops.get ⟨0, by decide⟩).length := by
  have h := mesh_from_surface_one_face_per_loop.1 Pt3 (Int × Int × Int) gkeyMilli triSurf
    [ptA, ptB, ptC] [[0, 1, 2]] mesh_from_surface_one_face_per_loop.2
  exact ⟨h.1, h.2 0 (by decide) (by decide)⟩

/-- C6 (amended): in the spatial key dictionary used during loop assembly,
the first occurrence of a key appends it, fixing its position and hence
its vertex index; every subsequent occurrence of the same key keeps the
key sequence (and so the index) unchanged but overwrites the stored point
with the newly encountered point. -/
theorem dictInsert_reuse_overwrite :
    ∀ (K P : Type) [DecidableEq K] (d : List (K × P)) (k : K) (v : P),
      ((dictInsert d k v).map Prod.fst
        = if k ∈ d.map Prod.fst then d.map Prod.fst else d.map Prod.fst ++ [k])
      ∧ (dictInsert d k v).lookup k = some v := by
  intro K P inst d k v
  refine ⟨dictInsert_keys d k v, ?_⟩
  induction d with
  | nil => simp [dictInsert, List.lookup]
  | cons p d ih =>
    obtain ⟨k0, v0⟩ := p
    by_cases h : k0 = k
    · subst h
      simp [dictInsert, List.lookup]
    · simp only [dictInsert, if_neg h, List.lookup]
      have hbeq : (k == k0) = false := beq_eq_false_iff_ne.mpr (fun hh => h hh.symm)
      rw [hbeq]
      exact ih

/-- C6 counterexample: a loop whose third segment starts at `ptA1`, a
point distinct from the loop's first corner `ptA` but with the same
geometric key; after assembly the stored point for that key is `ptA1`,
not the first-seen `ptA`, refuting the clause that later occurrences leave
the stored point unchanged. -/
theorem mesh_from_surface_point_overwritten :
    mesh_from_surface gkeyMilli overwriteSurf = MFSResult.mesh [ptA1, ptB, ptC] [[0, 1, 0, 2]]
    ∧ ptA1 ≠ ptA ∧ gkeyMilli ptA1 = gkeyMilli ptA :=
  ⟨rfl, by decide, by decide⟩

/-- C7: every vertex index appearing in any face emitted by
`mesh_from_surface` is strictly below the vertex count, and the vertex
sequence is exactly the first-seen order of the geometric keys encountered
while walking the loops (a pure function of the input, hence stable across
runs). -/
theorem mesh_from_surface_face_indices_bounded :
    ∀ (P K : Type) [DecidableEq K] (gkey : P → K) (surf : SurfaceObj P)
      (vs : List P) (fs : List (List Nat)),
      mesh_from_surface gkey surf = MFSResult.mesh vs fs →
      ((∀ f ∈ fs, ∀ i ∈ f, i < vs.length) ∧
       vs.map gkey = firstSeen [] (encounterKeys gkey surf.loops)) := by
  intro P K inst gkey surf vs fs h
  obtain ⟨d, kfaces, hassem, hvs, hfs⟩ := mfs_some gkey surf vs fs h
  obtain ⟨hkf, hkeys, hinv, hnn⟩ := assembleLoops_some gkey surf.loops ([], []) d kfaces hassem
  simp only [List.nil_append, List.map_nil] at hkf hkeys
  have hinv' : ∀ kp ∈ d, kp.1 = gkey kp.2 := hinv (fun kp hkp => absurd hkp (List.not_mem_nil kp))
  constructor
  · intro f hf i hi
    subst hfs
    simp only [List.mem_map] at hf
    obtain ⟨kf, hkf_mem, rfl⟩ := hf
    simp only [List.mem_map] at hi
    obtain ⟨k, hk_mem, rfl⟩ := hi
    have hk_enc : k ∈ (surf.loops.map (loopKeys gkey)).flatten := by
      subst hkf
      simp only [List.mem_map] at hkf_mem
      obtain ⟨l, hl, rfl⟩ := hkf_mem
      exact List.mem_flatten.mpr ⟨loopKeys gkey l, List.mem_map.mpr ⟨l, hl, rfl⟩, hk_mem⟩
    have hk_d : k ∈ d.map Prod.fst := by
      rw [hkeys]
      exact firstSeen_mem _ _ _ (Or.inl hk_enc)
    have hlt := List.indexOf_lt_length.mpr hk_d
    subst hvs
    simpa using hlt
  · subst hvs
    rw [List.map_map]
    have hmap : d.map (gkey ∘ Prod.snd) = d.map Prod.fst :=
      List.map_congr_left (fun kp hkp => (hinv' kp hkp).symm)
    rw [hmap, hkeys]
    rfl

/-- C7 witness: the bound and the first-seen order instantiated on a
concrete surface. -/
theorem mesh_from_surface_face_indices_bounded_inst :
    2 < ([ptA1, ptB, ptC] : List Pt3).length
    ∧ [ptA1, ptB, ptC].map gkeyMilli = firstSeen [] (encounterKeys gkeyMilli overwriteSurf.loops) := by
  have h := mesh_from_surface_face_indices_bounded Pt3 (Int × Int × Int) gkeyMilli overwriteSurf
    [ptA1, ptB, ptC] [[0, 1, 0, 2]] rfl
  exact ⟨h.1 [0, 1, 0, 2] (by decide) 2 (by decide), h.2⟩

/-- C8: a surface object whose geometry has no brep form makes
`mesh_from_surface` return the empty outcome (Python `None`) rather than
raise, and a brep with no loops yields a mesh with empty vertex and face
lists rather than an error. -/
theorem mesh_from_surface_no_geometry :
    ∀ (P K : Type) [DecidableEq K] (gkey : P → K) (surf : SurfaceObj P),
      (surf.hasBrepForm = false → mesh_from_surface gkey surf = MFSResult.noResult) ∧
      (surf.hasBrepForm = true → surf.loops = [] →
        mesh_from_surface gkey surf = MFSResult.mesh [] []) := by
  intro P K inst gkey surf
  constructor
  · intro hb
    simp [mesh_from_surface, hb]
  · intro hb hl
    simp [mesh_from_surface, hb, hl, assembleLoops]

/-- C8 witness: both clauses instantiated on concrete surfaces. -/
theorem mesh_from_surface_no_geometry_inst :
    mesh_from_surface gkeyMilli (⟨false, [[⟨ptA, ptB⟩]]⟩ : SurfaceObj Pt3) = MFSResult.noResult
    ∧ mesh_from_surface gkeyMilli (⟨true, []⟩ : SurfaceObj Pt3) = MFSResult.mesh [] [] :=
  ⟨(mesh_from_surface_no_geometry Pt3 (Int × Int × Int) gkeyMilli ⟨false, [[⟨ptA, ptB⟩]]⟩).1 rfl,
   (mesh_from_surface_no_geometry Pt3 (Int × Int × Int) gkeyMilli ⟨true, []⟩).2 rfl rfl⟩
